import Mathlib

/-!
Verification development for `src/ray/gcs/gcs_server/gcs_init_data.h`:
the GCS restart-recovery loader `GcsInitData`.

The header declares the class: a constructor taking a storage reference,
`AsyncLoad(Postable<void()> on_done)`, five const accessors
(`Jobs`, `Nodes`, `Actors`, `ActorTaskSpecs`, `PlacementGroups`) and the five
`absl::flat_hash_map` containers.  The bodies of `AsyncLoad` and of the five
private per-table loaders live in `gcs_init_data.cc`, which is not among the
sources; those parts are modelled from the specification (a completion
barrier initialized to 5, per-record insertion callbacks, a per-table
completion callback that decrements the barrier, and the continuation firing
when the barrier reaches zero).

Identifiers (JobID, NodeID, ActorID, PlacementGroupID) and protobuf record
values are abstracted as naturals; a `flat_hash_map` is modelled as an
association list whose insert erases any previous binding of the key.
The asynchronous execution of the five table loads is modelled by an event
trace: a `record` event delivers one key/value pair of one table, a
`complete` event is that table's completion callback.  A trace is valid for
given storage contents when its projection onto each table is exactly that
table's records, in delivery order, followed by that table's completion.
-/

namespace RayGcs

/-- The five metadata tables that `GcsInitData` loads from the GCS table
storage. -/
inductive Table where
  | jobs
  | nodes
  | actors
  | actorTaskSpecs
  | placementGroups
deriving DecidableEq, Repr

/-- A `absl::flat_hash_map` modelled as an association list of
key/value pairs, both abstracted as naturals. -/
abbrev TableMap := List (Nat × Nat)

/-- Insert-or-assign into a hash map: any previous binding of the key is
erased, so keys stay unique and the newest value wins. -/
def mapInsert (m : TableMap) (k v : Nat) : TableMap :=
  (k, v) :: m.filter (fun p => p.1 != k)

/-- Lookup in the modelled hash map. -/
def mapLookup (m : TableMap) (k : Nat) : Option Nat :=
  List.lookup k m

/-- The key list of the modelled hash map. -/
def mapKeys (m : TableMap) : List Nat :=
  m.map (fun p => p.1)

/-- `size()` of the modelled hash map. -/
def mapSize (m : TableMap) : Nat :=
  m.length

/-- The state of a `GcsInitData` instance.  The five container fields are the
members declared in the header.  `barrierCount`, `doneCount`, `issuedReads`
and `overArrive` model, from the spec, the completion barrier of
`AsyncLoad`: the remaining arrival count, how many times the continuation
`on_done` has been invoked, which table reads have been issued, and whether
an over-arrival (a completion signalled with the barrier already at zero)
has been detected. -/
structure GcsInitData where
  job_table_data_ : TableMap
  node_table_data_ : TableMap
  placement_group_table_data_ : TableMap
  actor_table_data_ : TableMap
  actor_task_spec_table_data_ : TableMap
  barrierCount : Nat
  doneCount : Nat
  issuedReads : List Table
  overArrive : Bool
deriving DecidableEq, Repr

/-- The constructor `GcsInitData::GcsInitData`: all five containers are
default-initialized (empty), no read has been issued, the continuation has
not fired. -/
def GcsInitData.make : GcsInitData :=
  ⟨[], [], [], [], [], 0, 0, [], false⟩

/-- Const accessor `Jobs()`: returns the job container; the receiver is
returned unchanged, modelling a side-effect-free const method. -/
def GcsInitData.Jobs (s : GcsInitData) : TableMap × GcsInitData :=
  (s.job_table_data_, s)

/-- Const accessor `Nodes()`. -/
def GcsInitData.Nodes (s : GcsInitData) : TableMap × GcsInitData :=
  (s.node_table_data_, s)

/-- Const accessor `Actors()`. -/
def GcsInitData.Actors (s : GcsInitData) : TableMap × GcsInitData :=
  (s.actor_table_data_, s)

/-- Const accessor `ActorTaskSpecs()`. -/
def GcsInitData.ActorTaskSpecs (s : GcsInitData) : TableMap × GcsInitData :=
  (s.actor_task_spec_table_data_, s)

/-- Const accessor `PlacementGroups()`. -/
def GcsInitData.PlacementGroups (s : GcsInitData) : TableMap × GcsInitData :=
  (s.placement_group_table_data_, s)

/-- The container that belongs to a table. -/
def getTable (s : GcsInitData) : Table → TableMap
  | Table.jobs => s.job_table_data_
  | Table.nodes => s.node_table_data_
  | Table.actors => s.actor_table_data_
  | Table.actorTaskSpecs => s.actor_task_spec_table_data_
  | Table.placementGroups => s.placement_group_table_data_

/-- Replace the container that belongs to a table. -/
def setTable (s : GcsInitData) (t : Table) (m : TableMap) : GcsInitData :=
  match t with
  | Table.jobs => { s with job_table_data_ := m }
  | Table.nodes => { s with node_table_data_ := m }
  | Table.actors => { s with actor_table_data_ := m }
  | Table.actorTaskSpecs => { s with actor_task_spec_table_data_ := m }
  | Table.placementGroups => { s with placement_group_table_data_ := m }

/-- Modelled from the spec: the completion barrier's `ArriveOne` (the body of
the per-table completion callbacks in `gcs_init_data.cc` is not among the
sources).  It decrements the remaining count; on the transition from one to
zero it invokes the continuation; arriving with the count already at zero is
a detected programming error, recorded in `overArrive`, and never invokes
the continuation. -/
def arriveOne (s : GcsInitData) : GcsInitData :=
  if s.barrierCount = 0 then
    { s with overArrive := true }
  else
    { s with
      barrierCount := s.barrierCount - 1,
      doneCount :=
        if s.barrierCount - 1 = 0 then s.doneCount + 1 else s.doneCount }

/-- All five tables, each exactly once: the fan-out that `AsyncLoad`
issues. -/
def allTables : List Table :=
  [Table.jobs, Table.nodes, Table.actors, Table.actorTaskSpecs,
   Table.placementGroups]

/-- Modelled from the spec: `GcsInitData::AsyncLoad` (its body in
`gcs_init_data.cc` is not among the sources).  It initializes the completion
barrier with count 5 and issues the five independent asynchronous table
reads; it performs no synchronous loading itself. -/
def GcsInitData.AsyncLoad (s : GcsInitData) : GcsInitData :=
  { s with barrierCount := 5, issuedReads := allTables }

/-- An asynchronous event delivered by the storage facade: one record of one
table, or one table's completion callback. -/
inductive Event where
  | record (t : Table) (k v : Nat)
  | complete (t : Table)
deriving DecidableEq, Repr

/-- The table an event belongs to. -/
def eventTable : Event → Table
  | Event.record t _ _ => t
  | Event.complete t => t

/-- Whether an event is a table-completion callback. -/
def isDone : Event → Bool
  | Event.record _ _ _ => false
  | Event.complete _ => true

/-- Modelled from the spec: processing one delivered event.  A record event
runs the per-record callback, inserting the pair into its own table's
container; a completion event runs the table-level completion callback,
which decrements the barrier. -/
def step (s : GcsInitData) : Event → GcsInitData
  | Event.record t k v => setTable s t (mapInsert (getTable s t) k v)
  | Event.complete _ => arriveOne s

/-- Process a whole trace of delivered events. -/
def run (s : GcsInitData) (es : List Event) : GcsInitData :=
  es.foldl step s

/-- Storage contents: for each table, the list of key/value records the
facade delivers, in delivery order. -/
abbrev Storage := Table → List (Nat × Nat)

/-- The event sequence one table's load contributes: its records in delivery
order, then its completion callback. -/
def perTableTrace (sto : Storage) (t : Table) : List Event :=
  ((sto t).map (fun p => Event.record t p.1 p.2)) ++ [Event.complete t]

/-- The subsequence of a trace belonging to one table. -/
def tableEvents (t : Table) (es : List Event) : List Event :=
  es.filter (fun e => eventTable e == t)

/-- A trace is a valid delivery schedule for the given storage contents when
its projection onto each table is exactly that table's records, in order,
followed by that table's completion: any interleaving of the five loads. -/
abbrev ValidTrace (sto : Storage) (es : List Event) : Prop :=
  tableEvents Table.jobs es = perTableTrace sto Table.jobs ∧
  tableEvents Table.nodes es = perTableTrace sto Table.nodes ∧
  tableEvents Table.actors es = perTableTrace sto Table.actors ∧
  tableEvents Table.actorTaskSpecs es = perTableTrace sto Table.actorTaskSpecs ∧
  tableEvents Table.placementGroups es = perTableTrace sto Table.placementGroups

/-- The key/value pairs a trace delivers for one table, in order. -/
def recordsOf (t : Table) (es : List Event) : List (Nat × Nat) :=
  es.filterMap (fun e =>
    match e with
    | Event.record t' k v => if t' = t then some (k, v) else none
    | Event.complete _ => none)

/-- The number of table-completion callbacks in a trace. -/
def nCompletes (es : List Event) : Nat :=
  es.countP isDone

/-- Insert a list of pairs into a map, left to right. -/
def insertAll (m : TableMap) (l : List (Nat × Nat)) : TableMap :=
  l.foldl (fun m' p => mapInsert m' p.1 p.2) m

/-- The map a table's load produces from the delivered records. -/
def loadedMap (l : List (Nat × Nat)) : TableMap :=
  insertAll [] l

/-! Frame lemmas: which fields each primitive touches. -/

theorem getTable_setTable_self (s : GcsInitData) (t : Table) (m : TableMap) :
    getTable (setTable s t m) t = m := by
  cases t <;> rfl

theorem getTable_setTable_ne (s : GcsInitData) (t t' : Table) (m : TableMap)
    (h : t' ≠ t) : getTable (setTable s t m) t' = getTable s t' := by
  cases t <;> cases t' <;> first | rfl | exact absurd rfl h

theorem setTable_barrierCount (s : GcsInitData) (t : Table) (m : TableMap) :
    (setTable s t m).barrierCount = s.barrierCount := by
  cases t <;> rfl

theorem setTable_doneCount (s : GcsInitData) (t : Table) (m : TableMap) :
    (setTable s t m).doneCount = s.doneCount := by
  cases t <;> rfl

theorem setTable_overArrive (s : GcsInitData) (t : Table) (m : TableMap) :
    (setTable s t m).overArrive = s.overArrive := by
  cases t <;> rfl

theorem arriveOne_getTable (s : GcsInitData) (t : Table) :
    getTable (arriveOne s) t = getTable s t := by
  unfold arriveOne
  split <;> cases t <;> rfl

theorem run_append (s : GcsInitData) (p q : List Event) :
    run s (p ++ q) = run (run s p) q :=
  List.foldl_append step s p q

/-- Running a trace transforms each table's container by inserting exactly
the records that trace delivers for that table, in order. -/
theorem run_getTable (es : List Event) (s : GcsInitData) (t : Table) :
    getTable (run s es) t = insertAll (getTable s t) (recordsOf t es) := by
  induction es generalizing s with
  | nil => rfl
  | cons e rest ih =>
    cases e with
    | record t' k v =>
      by_cases ht : t' = t
      · subst ht
        simp only [run, List.foldl_cons, step, recordsOf, List.filterMap_cons,
          if_pos rfl]
        rw [show (List.foldl step (setTable s t' (mapInsert (getTable s t') k v)) rest) = run (setTable s t' (mapInsert (getTable s t') k v)) rest from rfl]
        rw [ih, getTable_setTable_self]
        rfl
      · simp only [run, List.foldl_cons, step, recordsOf, List.filterMap_cons,
          if_neg ht]
        rw [show (List.foldl step (setTable s t' (mapInsert (getTable s t') k v)) rest) = run (setTable s t' (mapInsert (getTable s t') k v)) rest from rfl]
        rw [ih, getTable_setTable_ne _ _ _ _ (fun h => ht h.symm)]
        rfl
    | complete t' =>
      simp only [run, List.foldl_cons, step, recordsOf, List.filterMap_cons]
      rw [show (List.foldl step (arriveOne s) rest) = run (arriveOne s) rest from rfl]
      rw [ih, arriveOne_getTable]
      rfl

/-! Projection lemmas: a valid trace delivers, per table, exactly the
storage's records. -/

theorem recordsOf_tableEvents (t : Table) (es : List Event) :
    recordsOf t (tableEvents t es) = recordsOf t es := by
  induction es with
  | nil => rfl
  | cons e rest ih =>
    cases e with
    | record t' k v =>
      by_cases ht : t' = t
      · subst ht
        simp [tableEvents, recordsOf, List.filter_cons, eventTable] at ih ⊢
        exact ih
      · simp [tableEvents, recordsOf, List.filter_cons, eventTable, ht] at ih ⊢
        exact ih
    | complete t' =>
      by_cases ht : t' = t
      · subst ht
        simp [tableEvents, recordsOf, List.filter_cons, eventTable] at ih ⊢
        exact ih
      · simp [tableEvents, recordsOf, List.filter_cons, eventTable, ht] at ih ⊢
        exact ih

theorem recordsOf_ofRecords (t : Table) (l : List (Nat × Nat)) :
    recordsOf t ((l.map (fun p => Event.record t p.1 p.2)) ++ [Event.complete t])
      = l := by
  induction l with
  | nil => rfl
  | cons p rest ih =>
    simp only [recordsOf, List.map_cons, List.cons_append,
      List.filterMap_cons] at ih ⊢
    simp [ih]

theorem recordsOf_perTableTrace (sto : Storage) (t : Table) :
    recordsOf t (perTableTrace sto t) = sto t :=
  recordsOf_ofRecords t (sto t)

theorem validTrace_tableEvents {sto : Storage} {es : List Event}
    (h : ValidTrace sto es) (t : Table) :
    tableEvents t es = perTableTrace sto t := by
  obtain ⟨h1, h2, h3, h4, h5⟩ := h
  cases t <;> assumption

/-- Over a valid trace, each table's container ends up holding exactly the
insert-fold of that table's storage records. -/
theorem run_getTable_valid {sto : Storage} {es : List Event}
    (h : ValidTrace sto es) (s : GcsInitData) (t : Table) :
    getTable (run s es) t = insertAll (getTable s t) (sto t) := by
  rw [run_getTable, ← recordsOf_tableEvents, validTrace_tableEvents h,
    recordsOf_perTableTrace]

/-! The completion barrier invariant. -/

theorem arriveOne_barrierCount_pos (s : GcsInitData) (h : 0 < s.barrierCount) :
    (arriveOne s).barrierCount = s.barrierCount - 1 := by
  unfold arriveOne
  rw [if_neg (by omega)]

theorem arriveOne_doneCount_pos (s : GcsInitData) (h : 0 < s.barrierCount) :
    (arriveOne s).doneCount =
      if s.barrierCount = 1 then s.doneCount + 1 else s.doneCount := by
  unfold arriveOne
  rw [if_neg (by omega)]
  show (if s.barrierCount - 1 = 0 then s.doneCount + 1 else s.doneCount) = _
  split_ifs <;> omega

theorem arriveOne_overArrive_pos (s : GcsInitData) (h : 0 < s.barrierCount) :
    (arriveOne s).overArrive = s.overArrive := by
  unfold arriveOne
  rw [if_neg (by omega)]

theorem run_barrier (es : List Event) : ∀ s : GcsInitData,
    nCompletes es ≤ s.barrierCount → s.overArrive = false →
    (run s es).barrierCount = s.barrierCount - nCompletes es ∧
    (run s es).overArrive = false ∧
    (run s es).doneCount = s.doneCount +
      (if nCompletes es = s.barrierCount ∧ 0 < s.barrierCount then 1 else 0) := by
  induction es with
  | nil =>
    intro s hle hov
    refine ⟨rfl, hov, ?_⟩
    rw [if_neg]
    · rfl
    · simp only [nCompletes, List.countP_nil]
      omega
  | cons e rest ih =>
    intro s hle hov
    cases e with
    | record t k v =>
      have hn : nCompletes (Event.record t k v :: rest) = nCompletes rest := by
        simp [nCompletes, List.countP_cons, isDone]
      have hrun : run s (Event.record t k v :: rest) =
          run (setTable s t (mapInsert (getTable s t) k v)) rest := rfl
      rw [hn] at hle ⊢
      rw [hrun]
      have hb := setTable_barrierCount s t (mapInsert (getTable s t) k v)
      have hd := setTable_doneCount s t (mapInsert (getTable s t) k v)
      have ho := setTable_overArrive s t (mapInsert (getTable s t) k v)
      obtain ⟨ih1, ih2, ih3⟩ :=
        ih (setTable s t (mapInsert (getTable s t) k v))
          (by rw [hb]; exact hle) (by rw [ho]; exact hov)
      rw [ih1, ih2, ih3, hb, hd]
      exact ⟨rfl, rfl, rfl⟩
    | complete t =>
      have hn : nCompletes (Event.complete t :: rest) = nCompletes rest + 1 := by
        simp [nCompletes, List.countP_cons, isDone]
      have hpos : 0 < s.barrierCount := by
        rw [hn] at hle; omega
      have hrun : run s (Event.complete t :: rest) = run (arriveOne s) rest := rfl
      have hb := arriveOne_barrierCount_pos s hpos
      have hd := arriveOne_doneCount_pos s hpos
      have ho := arriveOne_overArrive_pos s hpos
      obtain ⟨ih1, ih2, ih3⟩ := ih (arriveOne s)
        (by rw [hb]; rw [hn] at hle; omega)
        (by rw [ho]; exact hov)
      rw [hrun, hn]
      refine ⟨by rw [ih1, hb]; omega, ih2, ?_⟩
      rw [ih3, hb, hd]
      split_ifs <;> omega

/-! Counting completion callbacks. -/

theorem tableEvents_cons (t : Table) (e : Event) (es : List Event) :
    tableEvents t (e :: es) =
      if eventTable e = t then e :: tableEvents t es else tableEvents t es := by
  by_cases h : eventTable e = t
  · simp [tableEvents, List.filter_cons, h]
  · simp [tableEvents, List.filter_cons, h]

theorem tableEvents_append (t : Table) (p q : List Event) :
    tableEvents t (p ++ q) = tableEvents t p ++ tableEvents t q := by
  simp [tableEvents, List.filter_append]

/-- Every event belongs to exactly one table, so the completion count of a
trace splits across the five per-table projections. -/
theorem nCompletes_split (es : List Event) :
    nCompletes es =
      nCompletes (tableEvents Table.jobs es) +
      nCompletes (tableEvents Table.nodes es) +
      nCompletes (tableEvents Table.actors es) +
      nCompletes (tableEvents Table.actorTaskSpecs es) +
      nCompletes (tableEvents Table.placementGroups es) := by
  induction es with
  | nil => rfl
  | cons e rest ih =>
    cases e with
    | record t k v =>
      cases t <;>
        simp [tableEvents_cons, eventTable, nCompletes, List.countP_cons,
          isDone] at ih ⊢ <;>
        omega
    | complete t =>
      cases t <;>
        simp [tableEvents_cons, eventTable, nCompletes, List.countP_cons,
          isDone] at ih ⊢ <;>
        omega

theorem nCompletes_perTableTrace (sto : Storage) (t : Table) :
    nCompletes (perTableTrace sto t) = 1 := by
  simp [nCompletes, perTableTrace, List.countP_append, List.countP_cons,
    List.countP_map, Function.comp, isDone]

/-- A valid trace contains exactly five completion callbacks: one per
table. -/
theorem nCompletes_valid {sto : Storage} {es : List Event}
    (h : ValidTrace sto es) : nCompletes es = 5 := by
  rw [nCompletes_split es,
    validTrace_tableEvents h Table.jobs,
    validTrace_tableEvents h Table.nodes,
    validTrace_tableEvents h Table.actors,
    validTrace_tableEvents h Table.actorTaskSpecs,
    validTrace_tableEvents h Table.placementGroups]
  simp [nCompletes_perTableTrace]

theorem nCompletes_append (p q : List Event) :
    nCompletes (p ++ q) = nCompletes p + nCompletes q :=
  List.countP_append _ p q

/-! Nothing of a valid trace can still be pending once the continuation has
fired: the last event of each table's projection is its completion. -/

theorem tableEvents_nCompletes_le (t : Table) (es : List Event) :
    nCompletes (tableEvents t es) ≤ nCompletes es :=
  List.Sublist.countP_le _ (List.filter_sublist es)

theorem eq_nil_of_tableEvents_nil (q : List Event)
    (h : ∀ t, tableEvents t q = []) : q = [] := by
  cases q with
  | nil => rfl
  | cons e r =>
    have := h (eventTable e)
    rw [tableEvents_cons, if_pos rfl] at this
    exact absurd this (List.cons_ne_nil _ _)

/-- In a valid trace split as `p ++ q`, if `p` already contains the five
completion callbacks then `q` is empty: every record precedes its table's
completion, so nothing follows the last completion. -/
theorem valid_done_tail_nil {sto : Storage} {p q : List Event}
    (h : ValidTrace sto (p ++ q)) (h5 : nCompletes p = 5) : q = [] := by
  have htot : nCompletes (p ++ q) = 5 := nCompletes_valid h
  have hq0 : nCompletes q = 0 := by
    rw [nCompletes_append] at htot; omega
  refine eq_nil_of_tableEvents_nil q (fun t => ?_)
  by_contra hne
  obtain ⟨b, x, hb⟩ := (List.eq_nil_or_concat (tableEvents t q)).resolve_left hne
  have hb' : tableEvents t q = b ++ [x] := by rw [hb, List.concat_eq_append]
  have hsplit := validTrace_tableEvents h t
  rw [tableEvents_append, hb'] at hsplit
  have hx : x = Event.complete t := by
    have h2 : (tableEvents t p ++ b) ++ [x] =
        ((sto t).map (fun r => Event.record t r.1 r.2)) ++ [Event.complete t] := by
      rw [List.append_assoc, hsplit]
      simp [perTableTrace]
    have := (List.append_inj' h2 rfl).2
    simpa using this
  have hcq : nCompletes (tableEvents t q) = 0 :=
    Nat.le_zero.mp (hq0 ▸ tableEvents_nCompletes_le t q)
  rw [hb', hx, nCompletes_append] at hcq
  simp [nCompletes, List.countP_cons, isDone] at hcq

/-! Hash-map lemmas: uniqueness of keys and last-write-wins. -/

/-- Number of entries of the map carrying the given key. -/
def countKey (m : TableMap) (k : Nat) : Nat :=
  m.countP (fun p => p.1 == k)

/-- The value of the last delivered record with the given key, if any. -/
def lastWins : List (Nat × Nat) → Nat → Option Nat
  | [], _ => none
  | p :: l, k =>
    match lastWins l k with
    | some v => some v
    | none => if p.1 = k then some p.2 else none

theorem countKey_filter_ne (m : TableMap) (k : Nat) :
    (m.filter (fun p => p.1 != k)).countP (fun p => p.1 == k) = 0 := by
  rw [List.countP_filter, List.countP_eq_zero]
  intro p _
  by_cases h : p.1 = k <;> simp [h]

theorem countKey_mapInsert_self (m : TableMap) (k v : Nat) :
    countKey (mapInsert m k v) k = 1 := by
  simp only [countKey, mapInsert, List.countP_cons]
  rw [countKey_filter_ne]
  simp

theorem countKey_mapInsert_ne (m : TableMap) (k v k' : Nat) (h : k' ≠ k) :
    countKey (mapInsert m k v) k' = countKey m k' := by
  simp only [countKey, mapInsert, List.countP_cons, List.countP_filter]
  have h1 : (((k, v) : Nat × Nat).1 == k') = false := by simp [Ne.symm h]
  have h2 : ∀ p : Nat × Nat, ((p.1 == k') && (p.1 != k)) = (p.1 == k') := by
    intro p
    by_cases hp : p.1 = k'
    · simp [hp, h]
    · simp [hp]
  simp only [h2, h1]
  simp

theorem lookup_filter_ne (m : TableMap) (k k' : Nat) (h : k' ≠ k) :
    List.lookup k' (m.filter (fun p => p.1 != k)) = List.lookup k' m := by
  induction m with
  | nil => rfl
  | cons p rest ih =>
    obtain ⟨a, b⟩ := p
    by_cases hak : a = k
    · have hc : (((a, b) : Nat × Nat).1 != k) = false := by simp [hak]
      have hka : k' ≠ a := by rw [hak]; exact h
      have hk' : (k' == a) = false := by simp [hka]
      simp [List.filter_cons, hc, List.lookup_cons, hk', ih]
    · have hc : (((a, b) : Nat × Nat).1 != k) = true := by simp [hak]
      by_cases hk : k' = a
      · simp [List.filter_cons, hc, List.lookup_cons, hk]
      · have hk' : (k' == a) = false := by simp [hk]
        simp [List.filter_cons, hc, List.lookup_cons, hk', ih]

theorem mapLookup_mapInsert (m : TableMap) (k v k' : Nat) :
    mapLookup (mapInsert m k v) k' = if k' = k then some v else mapLookup m k' := by
  by_cases h : k' = k
  · subst h
    simp [mapLookup, mapInsert, List.lookup_cons]
  · have hk : (k' == k) = false := by simp [h]
    simp [mapLookup, mapInsert, List.lookup_cons, hk, h, lookup_filter_ne m k k' h]

theorem lastWins_eq_none_iff (l : List (Nat × Nat)) (k : Nat) :
    lastWins l k = none ↔ l.countP (fun p => p.1 == k) = 0 := by
  induction l with
  | nil => simp [lastWins]
  | cons p rest ih =>
    by_cases hp : p.1 = k
    · have hb : (p.1 == k) = true := by simp [hp]
      cases hrest : lastWins rest k with
      | some v => simp [lastWins, List.countP_cons, hb, hrest, hp]
      | none => simp [lastWins, List.countP_cons, hb, hrest, hp]
    · have hb : (p.1 == k) = false := by simp [hp]
      cases hrest : lastWins rest k with
      | some v =>
        have hne : rest.countP (fun p => p.1 == k) ≠ 0 := fun h0 => by
          rw [ih.mpr h0] at hrest
          exact Option.noConfusion hrest
        simp [lastWins, List.countP_cons, hb, hrest, hne]
      | none =>
        simp [lastWins, List.countP_cons, hb, hrest, hp, ih.mp hrest]

theorem countKey_insertAll (l : List (Nat × Nat)) : ∀ (m : TableMap) (k : Nat),
    countKey (insertAll m l) k =
      if lastWins l k = none then countKey m k else 1 := by
  induction l with
  | nil => intro m k; simp [insertAll, lastWins]
  | cons p rest ih =>
    intro m k
    have hstep : insertAll m (p :: rest) = insertAll (mapInsert m p.1 p.2) rest := rfl
    rw [hstep, ih]
    cases hrest : lastWins rest k with
    | some v => simp [lastWins, hrest]
    | none =>
      by_cases hp : p.1 = k
      · subst hp
        simp [lastWins, hrest, countKey_mapInsert_self]
      · simp [lastWins, hrest, hp, countKey_mapInsert_ne m p.1 p.2 k (Ne.symm hp)]

theorem mapLookup_insertAll (l : List (Nat × Nat)) : ∀ (m : TableMap) (k : Nat),
    mapLookup (insertAll m l) k =
      match lastWins l k with
      | some v => some v
      | none => mapLookup m k := by
  induction l with
  | nil => intro m k; rfl
  | cons p rest ih =>
    intro m k
    have hstep : insertAll m (p :: rest) = insertAll (mapInsert m p.1 p.2) rest := rfl
    rw [hstep, ih]
    cases hrest : lastWins rest k with
    | some v => simp [lastWins, hrest]
    | none =>
      simp only [lastWins, hrest]
      rw [mapLookup_mapInsert]
      by_cases hp : p.1 = k
      · simp [hp]
      · have h1 : ¬(k = p.1) := fun hh => hp hh.symm
        simp [hp, h1]

/-! Canonical valid traces, used as concrete schedules. -/

theorem tableEvents_perTableTrace (sto : Storage) (t t' : Table) :
    tableEvents t (perTableTrace sto t') =
      if t' = t then perTableTrace sto t' else [] := by
  by_cases h : t' = t
  · subst h
    rw [if_pos rfl]
    simp only [tableEvents, perTableTrace, List.filter_append]
    congr 1
    · rw [List.filter_eq_self]
      intro e he
      obtain ⟨p, _, hp⟩ := List.mem_map.mp he
      rw [← hp]
      simp [eventTable]
    · simp [eventTable]
  · rw [if_neg h]
    simp only [tableEvents, perTableTrace, List.filter_append]
    rw [List.filter_eq_nil_iff.mpr, List.filter_eq_nil_iff.mpr, List.nil_append]
    · intro e he
      simp only [List.mem_singleton] at he
      simp [he, eventTable, h]
    · intro e he
      obtain ⟨p, _, hp⟩ := List.mem_map.mp he
      rw [← hp]
      simp [eventTable, h]

/-- The fully sequential delivery schedule: each table's records then its
completion, table after table. -/
def seqTrace (sto : Storage) : List Event :=
  perTableTrace sto Table.jobs ++ perTableTrace sto Table.nodes ++
  perTableTrace sto Table.actors ++ perTableTrace sto Table.actorTaskSpecs ++
  perTableTrace sto Table.placementGroups

theorem validTrace_seqTrace (sto : Storage) : ValidTrace sto (seqTrace sto) := by
  refine ⟨?_, ?_, ?_, ?_, ?_⟩ <;>
    simp [seqTrace, tableEvents_append, tableEvents_perTableTrace]

/-! Summary facts about a completed load, shared by the claim theorems. -/

theorem getTable_asyncLoad_make (t : Table) :
    getTable GcsInitData.make.AsyncLoad t = [] := by
  cases t <;> rfl

theorem run_state_of_valid {sto : Storage} {es : List Event}
    (h : ValidTrace sto es) :
    (run GcsInitData.make.AsyncLoad es).doneCount = 1 ∧
    (run GcsInitData.make.AsyncLoad es).barrierCount = 0 ∧
    (run GcsInitData.make.AsyncLoad es).overArrive = false := by
  have h5 : nCompletes es = 5 := nCompletes_valid h
  obtain ⟨hb, ho, hd⟩ := run_barrier es GcsInitData.make.AsyncLoad
    (by rw [h5]; exact Nat.le_refl 5) rfl
  refine ⟨?_, ?_, ho⟩
  · rw [hd, h5, if_pos ⟨rfl, Nat.succ_pos 4⟩]
    decide
  · rw [hb, h5]
    decide

theorem container_eq_of_valid {sto : Storage} {es : List Event}
    (h : ValidTrace sto es) (t : Table) :
    getTable (run GcsInitData.make.AsyncLoad es) t = loadedMap (sto t) := by
  rw [run_getTable_valid h _ t, getTable_asyncLoad_make]
  rfl

/-! Concrete storage contents used as witnesses. -/

/-- Storage with no records in any table. -/
def stoEmpty : Storage := fun _ => []

/-- Storage seeded with 3 jobs, 2 nodes, 0 actors, 1 actor task spec and 4
placement groups. -/
def sto3 : Storage
  | Table.jobs => [(1, 10), (2, 20), (3, 30)]
  | Table.nodes => [(4, 40), (5, 50)]
  | Table.actors => []
  | Table.actorTaskSpecs => [(6, 60)]
  | Table.placementGroups => [(7, 70), (8, 80), (9, 90), (10, 100)]

/-- Storage delivering two records under the same job key. -/
def stoDup : Storage
  | Table.jobs => [(1, 10), (1, 20)]
  | _ => []

/-- Storage with a single job record. -/
def stoOne : Storage
  | Table.jobs => [(1, 10)]
  | _ => []

/-- The fully sequential schedule in reversed table order. -/
def seqTraceRev (sto : Storage) : List Event :=
  perTableTrace sto Table.placementGroups ++
  perTableTrace sto Table.actorTaskSpecs ++ perTableTrace sto Table.actors ++
  perTableTrace sto Table.nodes ++ perTableTrace sto Table.jobs

/-! The claims. -/

/-- C1: for every delivery schedule of the five table loads — the five
completion callbacks arriving in any interleaving and any order — the
continuation passed to AsyncLoad is invoked exactly once: never zero times
and never more than once. -/
theorem C1_continuation_exactly_once (sto : Storage) (es : List Event)
    (h : ValidTrace sto es) :
    (run GcsInitData.make.AsyncLoad es).doneCount = 1 :=
  (run_state_of_valid h).1

/-- Witness instantiating C1 at a concrete storage and schedule. -/
theorem C1_witness :
    ValidTrace stoOne (seqTrace stoOne) ∧
    (run GcsInitData.make.AsyncLoad (seqTrace stoOne)).doneCount = 1 :=
  ⟨by decide,
    C1_continuation_exactly_once stoOne (seqTrace stoOne) (by decide)⟩

/-- C2: the continuation fires only strictly after all five table loads
have completed — once it has fired after a prefix of a valid trace, the
trace has in fact been consumed in full and every accessor holds the full
set of records the storage facade delivered for its table, never a proper
subset. -/
theorem C2_no_partial_exposure (sto : Storage) (p q : List Event)
    (h : ValidTrace sto (p ++ q))
    (hfired : 1 ≤ (run GcsInitData.make.AsyncLoad p).doneCount) :
    q = [] ∧
    ∀ t : Table,
      getTable (run GcsInitData.make.AsyncLoad p) t = loadedMap (sto t) := by
  have htot : nCompletes (p ++ q) = 5 := nCompletes_valid h
  have hple : nCompletes p ≤ 5 := by
    rw [nCompletes_append] at htot; omega
  obtain ⟨hb, ho, hd⟩ := run_barrier p GcsInitData.make.AsyncLoad hple rfl
  have h5 : nCompletes p = 5 := by
    by_contra hne
    rw [hd, if_neg (fun hc => hne hc.1)] at hfired
    exact absurd hfired (by decide)
  have hq : q = [] := valid_done_tail_nil h h5
  subst hq
  rw [List.append_nil] at h
  exact ⟨rfl, fun t => container_eq_of_valid h t⟩

/-- Witness instantiating C2 at a concrete storage and schedule. -/
theorem C2_witness :
    ValidTrace stoOne (seqTrace stoOne ++ []) ∧
    1 ≤ (run GcsInitData.make.AsyncLoad (seqTrace stoOne)).doneCount ∧
    getTable (run GcsInitData.make.AsyncLoad (seqTrace stoOne)) Table.jobs =
      loadedMap (stoOne Table.jobs) :=
  ⟨by decide, by decide,
    (C2_no_partial_exposure stoOne (seqTrace stoOne) [] (by decide)
      (by decide)).2 Table.jobs⟩

/-- C3: with the storage facade seeded with 3 jobs, 2 nodes, 0 actors, 1
actor task spec and 4 placement groups, once the continuation has fired the
accessors return maps of sizes 3, 2, 0, 1 and 4, and each key set equals
exactly the seeded identifiers of its table. -/
theorem C3_map_correctness (es : List Event) (h : ValidTrace sto3 es) :
    (run GcsInitData.make.AsyncLoad es).doneCount = 1 ∧
    mapSize ((run GcsInitData.make.AsyncLoad es).Jobs.1) = 3 ∧
    mapSize ((run GcsInitData.make.AsyncLoad es).Nodes.1) = 2 ∧
    mapSize ((run GcsInitData.make.AsyncLoad es).Actors.1) = 0 ∧
    mapSize ((run GcsInitData.make.AsyncLoad es).ActorTaskSpecs.1) = 1 ∧
    mapSize ((run GcsInitData.make.AsyncLoad es).PlacementGroups.1) = 4 ∧
    (mapKeys ((run GcsInitData.make.AsyncLoad es).Jobs.1)).toFinset =
      ({1, 2, 3} : Finset Nat) ∧
    (mapKeys ((run GcsInitData.make.AsyncLoad es).Nodes.1)).toFinset =
      ({4, 5} : Finset Nat) ∧
    (mapKeys ((run GcsInitData.make.AsyncLoad es).Actors.1)).toFinset =
      (∅ : Finset Nat) ∧
    (mapKeys ((run GcsInitData.make.AsyncLoad es).ActorTaskSpecs.1)).toFinset =
      ({6} : Finset Nat) ∧
    (mapKeys ((run GcsInitData.make.AsyncLoad es).PlacementGroups.1)).toFinset =
      ({7, 8, 9, 10} : Finset Nat) := by
  refine ⟨(run_state_of_valid h).1, ?_, ?_, ?_, ?_, ?_, ?_, ?_, ?_, ?_, ?_⟩
  · rw [show (run GcsInitData.make.AsyncLoad es).Jobs.1 =
      loadedMap (sto3 Table.jobs) from container_eq_of_valid h Table.jobs]
    decide
  · rw [show (run GcsInitData.make.AsyncLoad es).Nodes.1 =
      loadedMap (sto3 Table.nodes) from container_eq_of_valid h Table.nodes]
    decide
  · rw [show (run GcsInitData.make.AsyncLoad es).Actors.1 =
      loadedMap (sto3 Table.actors) from container_eq_of_valid h Table.actors]
    decide
  · rw [show (run GcsInitData.make.AsyncLoad es).ActorTaskSpecs.1 =
      loadedMap (sto3 Table.actorTaskSpecs) from
        container_eq_of_valid h Table.actorTaskSpecs]
    decide
  · rw [show (run GcsInitData.make.AsyncLoad es).PlacementGroups.1 =
      loadedMap (sto3 Table.placementGroups) from
        container_eq_of_valid h Table.placementGroups]
    decide
  · rw [show (run GcsInitData.make.AsyncLoad es).Jobs.1 =
      loadedMap (sto3 Table.jobs) from container_eq_of_valid h Table.jobs]
    decide
  · rw [show (run GcsInitData.make.AsyncLoad es).Nodes.1 =
      loadedMap (sto3 Table.nodes) from container_eq_of_valid h Table.nodes]
    decide
  · rw [show (run GcsInitData.make.AsyncLoad es).Actors.1 =
      loadedMap (sto3 Table.actors) from container_eq_of_valid h Table.actors]
    decide
  · rw [show (run GcsInitData.make.AsyncLoad es).ActorTaskSpecs.1 =
      loadedMap (sto3 Table.actorTaskSpecs) from
        container_eq_of_valid h Table.actorTaskSpecs]
    decide
  · rw [show (run GcsInitData.make.AsyncLoad es).PlacementGroups.1 =
      loadedMap (sto3 Table.placementGroups) from
        container_eq_of_valid h Table.placementGroups]
    decide

/-- Witness instantiating C3 at a concrete schedule. -/
theorem C3_witness :
    ValidTrace sto3 (seqTrace sto3) ∧
    mapSize ((run GcsInitData.make.AsyncLoad (seqTrace sto3)).Jobs.1) = 3 :=
  ⟨by decide, (C3_map_correctness (seqTrace sto3) (by decide)).2.1⟩

/-- C4: AsyncLoad initializes the completion barrier with count exactly 5
and issues the five independent reads, one per table; a per-record callback
inserts into its own table's container only, touching neither the other
containers nor the barrier; a table-level completion callback decrements
the barrier by exactly one. -/
theorem C4_barrier_and_fanout (s u : GcsInitData) (t t' : Table) (k v : Nat)
    (hne : t' ≠ t) (hpos : 0 < u.barrierCount) :
    (GcsInitData.AsyncLoad s).barrierCount = 5 ∧
    (GcsInitData.AsyncLoad s).issuedReads = allTables ∧
    allTables = [Table.jobs, Table.nodes, Table.actors, Table.actorTaskSpecs,
      Table.placementGroups] ∧
    getTable (step u (Event.record t k v)) t = mapInsert (getTable u t) k v ∧
    getTable (step u (Event.record t k v)) t' = getTable u t' ∧
    (step u (Event.record t k v)).barrierCount = u.barrierCount ∧
    (step u (Event.record t k v)).doneCount = u.doneCount ∧
    (step u (Event.complete t)).barrierCount = u.barrierCount - 1 :=
  ⟨rfl, rfl, rfl,
   getTable_setTable_self u t _,
   getTable_setTable_ne u t t' _ hne,
   setTable_barrierCount u t _,
   setTable_doneCount u t _,
   arriveOne_barrierCount_pos u hpos⟩

/-- Witness instantiating C4 at concrete states and tables. -/
theorem C4_witness :
    Table.nodes ≠ Table.jobs ∧
    0 < GcsInitData.make.AsyncLoad.barrierCount ∧
    (GcsInitData.AsyncLoad GcsInitData.make).barrierCount = 5 :=
  ⟨by decide, by decide,
    (C4_barrier_and_fanout GcsInitData.make GcsInitData.make.AsyncLoad
      Table.jobs Table.nodes 1 10 (by decide) (by decide)).1⟩

/-- C5: if the storage delivers two or more records under the same key for
one table, the final container holds exactly one entry for that key, and
its value is the last-delivered one. -/
theorem C5_duplicate_last_write_wins (sto : Storage) (es : List Event)
    (t : Table) (k : Nat) (h : ValidTrace sto es)
    (hdup : 2 ≤ (sto t).countP (fun p => p.1 == k)) :
    countKey (getTable (run GcsInitData.make.AsyncLoad es) t) k = 1 ∧
    mapLookup (getTable (run GcsInitData.make.AsyncLoad es) t) k =
      lastWins (sto t) k := by
  have hc := container_eq_of_valid h t
  have hnn : lastWins (sto t) k ≠ none := by
    rw [Ne, lastWins_eq_none_iff]
    omega
  constructor
  · rw [hc]
    show countKey (insertAll [] (sto t)) k = 1
    rw [countKey_insertAll, if_neg hnn]
  · obtain ⟨v, hv⟩ := Option.ne_none_iff_exists'.mp hnn
    rw [hc]
    show mapLookup (insertAll [] (sto t)) k = lastWins (sto t) k
    rw [mapLookup_insertAll, hv]

/-- Witness instantiating C5 at a storage delivering a duplicate job key. -/
theorem C5_witness :
    ValidTrace stoDup (seqTrace stoDup) ∧
    2 ≤ (stoDup Table.jobs).countP (fun p => p.1 == 1) ∧
    countKey
      (getTable (run GcsInitData.make.AsyncLoad (seqTrace stoDup)) Table.jobs)
      1 = 1 ∧
    mapLookup
      (getTable (run GcsInitData.make.AsyncLoad (seqTrace stoDup)) Table.jobs)
      1 = lastWins (stoDup Table.jobs) 1 :=
  ⟨by decide, by decide,
    (C5_duplicate_last_write_wins stoDup (seqTrace stoDup) Table.jobs 1
      (by decide) (by decide)).1,
    (C5_duplicate_last_write_wins stoDup (seqTrace stoDup) Table.jobs 1
      (by decide) (by decide)).2⟩

/-- C6: with zero records in every table, the continuation still fires
exactly once, no error is raised, and all five accessors return empty
containers. -/
theorem C6_empty_store (es : List Event) (h : ValidTrace stoEmpty es) :
    (run GcsInitData.make.AsyncLoad es).doneCount = 1 ∧
    (run GcsInitData.make.AsyncLoad es).overArrive = false ∧
    ∀ t : Table, getTable (run GcsInitData.make.AsyncLoad es) t = [] := by
  refine ⟨(run_state_of_valid h).1, (run_state_of_valid h).2.2, fun t => ?_⟩
  rw [container_eq_of_valid h t]
  rfl

/-- Witness instantiating C6 at the all-completions schedule. -/
theorem C6_witness :
    ValidTrace stoEmpty (seqTrace stoEmpty) ∧
    (run GcsInitData.make.AsyncLoad (seqTrace stoEmpty)).overArrive = false ∧
    getTable (run GcsInitData.make.AsyncLoad (seqTrace stoEmpty))
      Table.actors = [] :=
  ⟨by decide,
    (C6_empty_store (seqTrace stoEmpty) (by decide)).2.1,
    (C6_empty_store (seqTrace stoEmpty) (by decide)).2.2 Table.actors⟩

/-- C7: over the same storage contents, any two valid delivery schedules —
in particular any two choices of which table completes last — produce equal
final containers for all five tables, and in both runs the continuation
fires exactly once. -/
theorem C7_completion_order_deterministic (sto : Storage)
    (es1 es2 : List Event) (h1 : ValidTrace sto es1)
    (h2 : ValidTrace sto es2) :
    (run GcsInitData.make.AsyncLoad es1).doneCount = 1 ∧
    (run GcsInitData.make.AsyncLoad es2).doneCount = 1 ∧
    ∀ t : Table,
      getTable (run GcsInitData.make.AsyncLoad es1) t =
        getTable (run GcsInitData.make.AsyncLoad es2) t :=
  ⟨(run_state_of_valid h1).1, (run_state_of_valid h2).1,
   fun t => by
    rw [container_eq_of_valid h1 t, container_eq_of_valid h2 t]⟩

/-- Witness instantiating C7 at two schedules in opposite table order. -/
theorem C7_witness :
    ValidTrace sto3 (seqTrace sto3) ∧
    ValidTrace sto3 (seqTraceRev sto3) ∧
    getTable (run GcsInitData.make.AsyncLoad (seqTrace sto3)) Table.jobs =
      getTable (run GcsInitData.make.AsyncLoad (seqTraceRev sto3))
        Table.jobs :=
  ⟨by decide, by decide,
    (C7_completion_order_deterministic sto3 (seqTrace sto3) (seqTraceRev sto3)
      (by decide) (by decide)).2.2 Table.jobs⟩

/-- C8: a sixth completion signal delivered against the arrival count of
five is detected as an over-arrival error rather than being silently
ignored, and it can never fire the continuation a second time. -/
theorem C8_over_arrival_detected (sto : Storage) (es : List Event)
    (t : Table) (h : ValidTrace sto es) :
    (run GcsInitData.make.AsyncLoad
      (es ++ [Event.complete t])).overArrive = true ∧
    (run GcsInitData.make.AsyncLoad
      (es ++ [Event.complete t])).doneCount = 1 := by
  obtain ⟨hd, hb, ho⟩ := run_state_of_valid h
  rw [run_append]
  have hstep : run (run GcsInitData.make.AsyncLoad es) [Event.complete t] =
      arriveOne (run GcsInitData.make.AsyncLoad es) := rfl
  rw [hstep]
  unfold arriveOne
  rw [if_pos hb]
  exact ⟨rfl, hd⟩

/-- Witness instantiating C8 with a duplicated job completion. -/
theorem C8_witness :
    ValidTrace stoOne (seqTrace stoOne) ∧
    (run GcsInitData.make.AsyncLoad
      (seqTrace stoOne ++ [Event.complete Table.jobs])).overArrive = true :=
  ⟨by decide,
    (C8_over_arrival_detected stoOne (seqTrace stoOne) Table.jobs
      (by decide)).1⟩

/-- C9 as stated is refuted: in a valid trace, one job record is delivered
before the job table's completion callback; at that point no table has
completed yet, but the job container is already non-empty, so the container
is not empty "until that table's load completes". -/
theorem C9_counterexample :
    ValidTrace stoOne
      ([Event.record Table.jobs 1 10] ++
        [Event.complete Table.jobs, Event.complete Table.nodes,
         Event.complete Table.actors, Event.complete Table.actorTaskSpecs,
         Event.complete Table.placementGroups]) ∧
    nCompletes [Event.record Table.jobs 1 10] = 0 ∧
    (run GcsInitData.make.AsyncLoad
      [Event.record Table.jobs 1 10]).Jobs.1 ≠ [] := by
  decide

/-- C9 amended: each table's container is empty from construction until the
first record for that table is delivered (it may be non-empty before that
table's load completes); in particular, immediately after construction all
accessors return empty containers and no storage read has been issued. -/
theorem C9_empty_until_first_record (p : List Event) (t : Table)
    (h : recordsOf t p = []) :
    getTable (run GcsInitData.make.AsyncLoad p) t = [] ∧
    getTable GcsInitData.make t = [] ∧
    GcsInitData.make.issuedReads = [] := by
  refine ⟨?_, ?_, rfl⟩
  · rw [run_getTable, h]
    exact getTable_asyncLoad_make t
  · cases t <;> rfl

/-- Witness instantiating the amended C9: after a node record only, the job
container is still empty. -/
theorem C9_amended_witness :
    recordsOf Table.jobs [Event.record Table.nodes 4 40] = [] ∧
    getTable (run GcsInitData.make.AsyncLoad [Event.record Table.nodes 4 40])
      Table.jobs = [] :=
  ⟨by decide,
    (C9_empty_until_first_record [Event.record Table.nodes 4 40] Table.jobs
      (by decide)).1⟩

/-- C10: every const accessor is side-effect-free: it leaves the receiver
unchanged, and two consecutive calls to the same accessor return equal
contents. -/
theorem C10_accessors_pure (s : GcsInitData) :
    s.Jobs.2 = s ∧ s.Nodes.2 = s ∧ s.Actors.2 = s ∧
    s.ActorTaskSpecs.2 = s ∧ s.PlacementGroups.2 = s ∧
    (s.Jobs.2).Jobs.1 = s.Jobs.1 ∧
    (s.Nodes.2).Nodes.1 = s.Nodes.1 ∧
    (s.Actors.2).Actors.1 = s.Actors.1 ∧
    (s.ActorTaskSpecs.2).ActorTaskSpecs.1 = s.ActorTaskSpecs.1 ∧
    (s.PlacementGroups.2).PlacementGroups.1 = s.PlacementGroups.1 :=
  ⟨rfl, rfl, rfl, rfl, rfl, rfl, rfl, rfl, rfl, rfl⟩

end RayGcs
